import Mathlib

/-!
Verification of the core of the rune Emacs-Lisp runtime: the arity
descriptor and argument normalization (`FnArgs::num_of_fill_args`,
`SubrFn::call`), the tagged-value representation and its projections
(`tagged.rs`), the collector short-circuits (`is_markable`, `is_marked`,
`trace_mark`), object equality, case conversion (`casefiddle.rs`), and
the differential-testing frame counter (`elprop` runner).

Machine integers are modelled as `Nat`/`Int` with explicit reductions
modulo `2 ^ 64` (usize/isize/i64 on the 64-bit target) and bounds
`65535` (u16) where the source uses fixed-width arithmetic.
-/

namespace Rune

/-- Error raised by the arity check, `ArgError::new(expected, got, name)`
(spec: `ArgCountError{expected, got, name}`). -/
structure ArgError where
  expected : Nat
  got : Nat
  name : String
  deriving DecidableEq, Repr

/-- Argument requirements to a function (`FnArgs` in `func.rs`).
The numeric fields are u16 in the source; the spec invariant
`required + optional ≤ u16::MAX` is carried as a hypothesis where needed. -/
structure FnArgs where
  rest : Bool
  required : Nat
  optional : Nat
  advice : Bool
  deriving DecidableEq, Repr

/-- `FnArgs::num_of_fill_args` from `func.rs`: number of nil arguments to
append so the callee sees exactly `required + optional` slots.
`saturating_sub` on u16 is truncated subtraction, i.e. `Nat` subtraction. -/
def FnArgs.num_of_fill_args (self : FnArgs) (args : Nat) (name : String) :
    Except ArgError Nat :=
  if args < self.required then
    .error ⟨self.required, args, name⟩
  else
    let total := self.required + self.optional
    if !self.rest && decide (args > total) then
      .error ⟨total, args, name⟩
    else
      .ok (total - args)

/-- The closed tag set of `tagged.rs` (`#[repr(u8)] enum Tag`). -/
inductive Tag where
  | Symbol
  | Int
  | Float
  | Cons
  | String
  | Vec
  | Record
  | HashTable
  | SubrFn
  | ByteFn
  deriving DecidableEq, Repr

/-- Discriminant of each tag (`tag as usize`; `#[repr(u8)]`, source order). -/
def Tag.toNat : Tag → Nat
  | .Symbol => 0
  | .Int => 1
  | .Float => 2
  | .Cons => 3
  | .String => 4
  | .Vec => 5
  | .Record => 6
  | .HashTable => 7
  | .SubrFn => 8
  | .ByteFn => 9

/-- Inverse of the `u8 → Tag` transmute in `Gc::tag`: defined only on the
ten discriminants of the closed tag set. -/
def tagOfByte : Nat → Option Tag
  | 0 => some .Symbol
  | 1 => some .Int
  | 2 => some .Float
  | 3 => some .Cons
  | 4 => some .String
  | 5 => some .Vec
  | 6 => some .Record
  | 7 => some .HashTable
  | 8 => some .SubrFn
  | 9 => some .ByteFn
  | _ => none

/-- Bit-cast of a 64-bit word to a signed 64-bit integer
(`x as isize` / `ptr.addr() as i64` on the 64-bit target). -/
def signedOfWord (a : Nat) : Int :=
  if a < 2 ^ 63 then (a : Int) else (a : Int) - 2 ^ 64

/-- Bit-cast of a signed 64-bit integer to a word (`n as usize`). -/
def wordOfSigned (n : Int) : Nat := (n % (2 ^ 64 : Int)).toNat

/-- `Gc::from_ptr`: `ptr.map_addr(|x| (x << 8) | tag as usize)`; the high
eight address bits are shifted out of the word. -/
def fromPtrAddr (addr : Nat) (t : Tag) : Nat := ((addr <<< 8) % 2 ^ 64) ||| t.toNat

/-- Address part of `Gc::untag_ptr`:
`ptr.map_addr(|x| ((x as isize) >> 8) as usize)` — an arithmetic (floor)
shift right by eight, sign-extending bit 63 of the word. -/
def untagPtrAddr (v : Nat) : Nat :=
  wordOfSigned (Int.fdiv (signedOfWord v) 256)

/-- Tag byte of a tagged word (`Gc::tag`: `self.ptr.addr() as u8`). -/
def tagByte (v : Nat) : Nat := v % 256

/-- `impl IntoObject for i64`: tag an i64 as an Int value,
`Gc::from_ptr(sptr::invalid(self as usize), Tag::Int)`. -/
def alloc_int (n : Int) : Nat := fromPtrAddr (wordOfSigned n) Tag.Int

/-- `impl TaggedPtr for i64`, `from_obj_ptr`: `ptr.addr() as i64`. -/
def i64_from_obj_ptr (a : Nat) : Int := signedOfWord a

/-- The `Tag::Int` arm of `Object::untag`: recover the i64 payload of an
Int-tagged word. -/
def untag_int (v : Nat) : Int := i64_from_obj_ptr (untagPtrAddr v)

/-- The `Object` sum-type view of a tagged value (`enum Object` in
`tagged.rs`). Heap variants carry the untagged referent address; `Int`
carries the i64 payload recovered from the pointer bits. -/
inductive Object where
  | Int (n : ℤ)
  | Float (addr : Nat)
  | Symbol (addr : Nat)
  | Cons (addr : Nat)
  | Vec (addr : Nat)
  | Record (addr : Nat)
  | HashTable (addr : Nat)
  | String (addr : Nat)
  | ByteFn (addr : Nat)
  | SubrFn (addr : Nat)
  deriving DecidableEq, Repr

/-- `TaggedPtr for Object::untag`: branch on the tag byte and rebuild the
typed variant from the untagged pointer; `none` on a byte outside the
closed tag set (unreachable for well-formed words). -/
def untagObject (v : Nat) : Option Object :=
  let p := untagPtrAddr v
  match tagOfByte (tagByte v) with
  | some .Symbol => some (.Symbol p)
  | some .Cons => some (.Cons p)
  | some .SubrFn => some (.SubrFn p)
  | some .ByteFn => some (.ByteFn p)
  | some .Int => some (.Int (i64_from_obj_ptr p))
  | some .Float => some (.Float p)
  | some .String => some (.String p)
  | some .Vec => some (.Vec p)
  | some .Record => some (.Record p)
  | some .HashTable => some (.HashTable p)
  | none => none

/-- `get_ptr` of the `TaggedPtr` impl behind each variant: the reference
address, or for i64 the invalid pointer `sptr::invalid(self as usize)`. -/
def Object.get_ptr : Object → Nat
  | .Int n => wordOfSigned n
  | .Float a => a
  | .Symbol a => a
  | .Cons a => a
  | .Vec a => a
  | .Record a => a
  | .HashTable a => a
  | .String a => a
  | .ByteFn a => a
  | .SubrFn a => a

/-- The `TAG` constant of the `TaggedPtr` impl behind each variant. -/
def Object.tagOf : Object → Tag
  | .Int _ => .Int
  | .Float _ => .Float
  | .Symbol _ => .Symbol
  | .Cons _ => .Cons
  | .Vec _ => .Vec
  | .Record _ => .Record
  | .HashTable _ => .HashTable
  | .String _ => .String
  | .ByteFn _ => .ByteFn
  | .SubrFn _ => .SubrFn

/-- Re-tag an `Object` variant into a tagged word: the `From<$subtype> for
Gc<$supertype>` conversions generated by `cast_gc!`, i.e.
`tag_ptr(x.get_ptr())`. -/
def retag (o : Object) : Nat := fromPtrAddr o.get_ptr o.tagOf

/-- The `Type` enum of `error.rs` naming the expected subset of a failed
projection (named `ObjType` here because `Type` is reserved in Lean). -/
inductive ObjType where
  | Int
  | Float
  | Symbol
  | Cons
  | Vec
  | Record
  | HashTable
  | String
  | Func
  | Number
  | List
  deriving DecidableEq, Repr

/-- `TypeError::new(expected, actual)`: the error carries the expected
subset and the offending tagged value itself. -/
structure TypeError where
  expected : ObjType
  actual : Nat
  deriving DecidableEq, Repr

/-- `TryFrom<Gc<Object>> for Gc<Number>`: succeed exactly on tag Int or
Float, returning the word unchanged (`cast_gc`); otherwise
`TypeError::new(Type::Number, value)`. -/
def try_from_number (v : Nat) : Except TypeError Nat :=
  match tagOfByte (tagByte v) with
  | some .Int | some .Float => .ok v
  | _ => .error ⟨.Number, v⟩

/-- Nil test on a symbol (`s.nil()` inside the List projection).
Modelled from the spec: `Symbol::nil` lives outside `src/`; the spec says
the canonical nil symbol is a statically allocated singleton recognized by
bitwise identity, so the test compares the symbol address with the nil
symbol address. -/
def symbolIsNil (nilAddr a : Nat) : Bool := a == nilAddr

/-- `TryFrom<Gc<Object>> for Gc<List>`: succeed on the canonical nil
symbol or a Cons, returning the word unchanged; otherwise
`TypeError::new(Type::List, value)`. -/
def try_from_list (nilAddr v : Nat) : Except TypeError Nat :=
  match untagObject v with
  | some (.Symbol s) =>
      if symbolIsNil nilAddr s then .ok v else .error ⟨.List, v⟩
  | some (.Cons _) => .ok v
  | _ => .error ⟨.List, v⟩

/-- `TryFrom<Gc<Object>> for Gc<Function>`: succeed exactly on tag ByteFn,
SubrFn, Cons or Symbol, returning the word unchanged; otherwise
`TypeError::new(Type::Func, value)`. -/
def try_from_function (v : Nat) : Except TypeError Nat :=
  match tagOfByte (tagByte v) with
  | some .ByteFn | some .SubrFn | some .Cons | some .Symbol => .ok v
  | _ => .error ⟨.Func, v⟩

/-- `Gc<Object>::is_markable`:
`!matches!(self.untag(), Object::Int(_) | Object::SubrFn(_))`. -/
def is_markable (v : Nat) : Bool :=
  match untagObject v with
  | some (.Int _) => false
  | some (.SubrFn _) => false
  | _ => true

/-- `Gc<Object>::is_marked`: Int and SubrFn values report marked; every
heap variant consults its own mark bit (`x.is_marked()`, implemented per
object type outside `tagged.rs` and abstracted here as `objMarked`). -/
def is_marked (objMarked : Object → Bool) (v : Nat) : Bool :=
  match untagObject v with
  | some (.Int _) => true
  | some (.SubrFn _) => true
  | some o => objMarked o
  | none => false

/-- Mutable collector state threaded through `trace_mark`: the explicit
trace stack and the per-object mark bits. -/
structure GcState where
  stack : List Nat
  marks : Nat → Bool

/-- `Gc<Object>::trace_mark`: Int and SubrFn do nothing; every heap
variant marks itself or traces its children onto the stack
(`x.mark()` / `x.trace(stack)`, implemented per object type outside
`tagged.rs` and abstracted here as `objTrace`). -/
def trace_mark (objTrace : Object → GcState → GcState) (v : Nat)
    (s : GcState) : GcState :=
  match untagObject v with
  | some (.Int _) => s
  | some (.SubrFn _) => s
  | some o => objTrace o s
  | none => s

/-- The fill loop of `SubrFn::call`:
`for _ in 0..fill_args { args.push(nil()) }`. -/
def pushNils {α : Type} (nilv : α) (args : List α) : Nat → List α
  | 0 => args
  | k + 1 => pushNils nilv (args ++ [nilv]) k

/-- `SubrFn::call` from `func.rs`: borrow the argument vector, take its
length as u16 (`args.len() as u16`), compute the fill count, push that
many nils, then invoke the underlying native function pointer with the
argument slice, the environment handle and the arena. The native function
is abstracted as `subr`; a failed arity check propagates via `?`. -/
def SubrFn.call {α β γ δ : Type} (fa : FnArgs) (name : String) (nilv : α)
    (subr : List α → γ → δ → β) (args : List α) (env : γ) (cx : δ) :
    Except ArgError β :=
  match fa.num_of_fill_args (args.length % 65536) name with
  | .error e => .error e
  | .ok fill => .ok (subr (pushNils nilv args fill) env cx)

/-- `impl PartialEq for Object` from `tagged.rs`. The payload equalities
implemented outside `tagged.rs` are abstracted: `floatEq`, `symEq`,
`consEq`, `vecEq`, `strEq` compare referents by address, and `subrPtr`
reads the `subr` function pointer of a SubrFn, whose own `PartialEq`
(`func.rs`) compares those pointers. The three `todo!()` arms panic,
modelled as `none`. -/
def eqObject (floatEq symEq consEq vecEq strEq : Nat → Nat → Bool)
    (subrPtr : Nat → Nat) : Object → Object → Option Bool
  | .Int l, .Int r => some (l == r)
  | .Float l, .Float r => some (floatEq l r)
  | .Symbol l, .Symbol r => some (symEq l r)
  | .Cons l, .Cons r => some (consEq l r)
  | .Vec l, .Vec r => some (vecEq l r)
  | .String l, .String r => some (strEq l r)
  | .ByteFn _, .ByteFn _ => none
  | .SubrFn l, .SubrFn r => some (subrPtr l == subrPtr r)
  | .Record _, .Record _ => none
  | .HashTable _, .HashTable _ => none
  | _, _ => some false

/-- `process_eval_result` from `elprop/src/bin/runner.rs`, reduced to its
counter contract: the counter parsed from the received `ELPROP_START`
frame is checked with `assert_eq!` against the runner master count; a
mismatch aborts the runner (modelled as `none`). -/
def process_eval_result (master_count : Nat) (frameCount : Nat) : Option Unit :=
  if frameCount = master_count then some () else none

/-- The per-test-case loop of `main` in `runner.rs`: each test case reads
one Emacs frame and one Rune frame, checks both counters against the
master count, then increments the master count
(`*master_count.borrow_mut() += 1`). A test case is represented by the
pair of counters carried by the two received frames; the result is the
final master count, `none` if some frame was rejected. -/
def runner_loop : Nat → List (Nat × Nat) → Option Nat
  | c, [] => some c
  | c, (e, r) :: rest =>
    match process_eval_result c e, process_eval_result c r with
    | some _, some _ => runner_loop (c + 1) rest
    | _, _ => none

/-- The reserved Garay block guard of `upcase` in `casefiddle.rs`:
`'\u{10D40}'..='\u{10D8F}'`. -/
def isGaray (c : Char) : Bool := decide (0x10D40 ≤ c.toNat) && decide (c.toNat ≤ 0x10D8F)

/-- `str::replace` with a one-character pattern, on the character list of
the string: every occurrence of `pat` becomes `rep`. -/
def replaceChar (s : List Char) (pat : Char) (rep : List Char) : List Char :=
  s.flatMap fun c => if c = pat then rep else [c]

/-- The case-conversion loop of `upcase`: Garay-block characters are
pushed unchanged, every other character is replaced by its uppercase
expansion `c.to_uppercase()`; the Unicode uppercase mapping comes from
the Rust standard library (external) and is abstracted as `toUp`. -/
def caseConvert (toUp : Char → List Char) (s : List Char) : List Char :=
  s.flatMap fun c => if isGaray c then [c] else toUp c

/-- `upcase` from `casefiddle.rs`: case-convert, then
`result.replace('\\', "\\\\").replace('"', "\\\"")`. -/
def upcase (toUp : Char → List Char) (s : List Char) : List Char :=
  replaceChar (replaceChar (caseConvert toUp s) (Char.ofNat 92) [Char.ofNat 92, Char.ofNat 92])
    (Char.ofNat 34) [Char.ofNat 92, Char.ofNat 34]

/-- C1: for every arity descriptor with `required = r`, `optional = o`,
`rest = R` satisfying `r + o ≤ u16::MAX` and every call count `n`:
`num_of_fill_args` fails with `ArgError{expected = r, got = n, name}` when
`n < r`; returns `r + o - n` when `r ≤ n ≤ r + o`; fails with
`ArgError{expected = r + o, got = n, name}` when `n > r + o` and `!R`;
and returns `0` when `n > r + o` and `R`. -/
theorem num_of_fill_args_spec (r o : Nat) (R adv : Bool) (n : Nat) (name : String)
    (hro : r + o ≤ 65535) (hn : n ≤ 65535) :
    (n < r →
      FnArgs.num_of_fill_args ⟨R, r, o, adv⟩ n name = .error ⟨r, n, name⟩) ∧
    (r ≤ n → n ≤ r + o →
      FnArgs.num_of_fill_args ⟨R, r, o, adv⟩ n name = .ok (r + o - n)) ∧
    (r + o < n → R = false →
      FnArgs.num_of_fill_args ⟨R, r, o, adv⟩ n name = .error ⟨r + o, n, name⟩) ∧
    (r + o < n → R = true →
      FnArgs.num_of_fill_args ⟨R, r, o, adv⟩ n name = .ok 0) := by
  refine ⟨fun h1 => ?_, fun h1 h2 => ?_, fun h1 h2 => ?_, fun h1 h2 => ?_⟩ <;>
    simp only [FnArgs.num_of_fill_args] <;>
    split <;>
    simp_all <;>
    omega

/-- Witness for `num_of_fill_args_spec`: `{required = 2, optional = 1}` called
with one argument fails with `ArgError{expected = 2, got = 1}`. -/
theorem num_of_fill_args_spec_witness :
    FnArgs.num_of_fill_args ⟨false, 2, 1, false⟩ 1 "car" = .error ⟨2, 1, "car"⟩ :=
  (num_of_fill_args_spec 2 1 false false 1 "car" (by decide) (by decide)).1 (by decide)

/-- A word whose low eight bits are clear or-ed with a byte is their sum
(specialization of `Nat.mul_add_lt_is_or`). -/
theorem lor_low (x y : Nat) (hx : x % 256 = 0) (hy : y < 256) : x ||| y = x + y := by
  obtain ⟨q, rfl⟩ : ∃ q, x = 2 ^ 8 * q := ⟨x / 256, by omega⟩
  exact (Nat.mul_add_lt_is_or (show y < 2 ^ 8 from hy) q).symm

/-- Arithmetic form of `fromPtrAddr`: the or with the tag byte is an
addition because the shifted address has a clear low byte. -/
theorem fromPtrAddr_eq_add (a : Nat) (t : Tag) :
    fromPtrAddr a t = a * 256 % 2 ^ 64 + t.toNat := by
  have ht : t.toNat < 256 := by cases t <;> decide
  have hx : (a <<< 8) % 2 ^ 64 % 256 = 0 := by
    rw [Nat.shiftLeft_eq]
    omega
  unfold fromPtrAddr
  rw [lor_low _ _ hx ht, Nat.shiftLeft_eq]

/-- C2 counterexample: tagging `i64::MAX` as an Int and untagging yields
`-1`, not `i64::MAX`: the tag occupies the low byte and the top eight bits
of the payload are shifted out of the word. -/
theorem int_roundtrip_counterexample :
    untag_int (alloc_int (2 ^ 63 - 1)) = -1 ∧ (2 ^ 63 - 1 : Int) ≠ -1 := by
  constructor
  · rfl
  · decide

/-- C2 (amended): for every integer n in the 56-bit payload range
`-2^55 ≤ n < 2^55`, tagging n as an Int value (the `into_obj` path) and
then untagging the result yields n again. -/
theorem int_roundtrip (n : Int) (h1 : -(2 ^ 55) ≤ n) (h2 : n < 2 ^ 55) :
    untag_int (alloc_int n) = n := by
  unfold untag_int alloc_int i64_from_obj_ptr untagPtrAddr
  rw [fromPtrAddr_eq_add]
  rw [Int.fdiv_eq_ediv _ (by norm_num)]
  rw [show Tag.toNat Tag.Int = 1 from rfl]
  unfold wordOfSigned signedOfWord
  split_ifs <;> omega

/-- Witness for `int_roundtrip`: the round-trip is the identity at 42. -/
theorem int_roundtrip_witness : untag_int (alloc_int 42) = 42 :=
  int_roundtrip 42 (by norm_num) (by norm_num)

/-- The untagged address always fits in a 64-bit word. -/
theorem untagPtrAddr_lt (v : Nat) : untagPtrAddr v < 2 ^ 64 := by
  unfold untagPtrAddr wordOfSigned
  generalize Int.fdiv (signedOfWord v) 256 = s
  omega

/-- Bit-casting a word to i64 and back is the identity. -/
theorem wordOfSigned_signedOfWord (a : Nat) (h : a < 2 ^ 64) :
    wordOfSigned (signedOfWord a) = a := by
  unfold wordOfSigned signedOfWord
  split_ifs <;> omega

/-- Re-tagging the untagged address with the original tag byte restores
the original word. -/
theorem fromPtrAddr_untagPtrAddr (v : Nat) (t : Tag) (hv : v < 2 ^ 64)
    (ht : t.toNat = tagByte v) : fromPtrAddr (untagPtrAddr v) t = v := by
  rw [fromPtrAddr_eq_add, ht]
  unfold untagPtrAddr wordOfSigned signedOfWord tagByte
  rw [Int.fdiv_eq_ediv _ (by norm_num)]
  split_ifs <;> omega

/-- C3: for every well-formed tagged value (a 64-bit word whose tag byte
lies in the closed ten-tag set), projecting to the `Object` view succeeds
(every tag is handled) and re-tagging the resulting variant yields a word
bitwise identical to the input. -/
theorem retag_untag (v : Nat) (hv : v < 2 ^ 64) (ht : v % 256 < 10) :
    ∃ o, untagObject v = some o ∧ retag o = v := by
  have hcases : v % 256 = 0 ∨ v % 256 = 1 ∨ v % 256 = 2 ∨ v % 256 = 3 ∨
      v % 256 = 4 ∨ v % 256 = 5 ∨ v % 256 = 6 ∨ v % 256 = 7 ∨
      v % 256 = 8 ∨ v % 256 = 9 := by omega
  have hint : wordOfSigned (signedOfWord (untagPtrAddr v)) = untagPtrAddr v :=
    wordOfSigned_signedOfWord _ (untagPtrAddr_lt v)
  rcases hcases with h | h | h | h | h | h | h | h | h | h <;>
    refine ⟨_, by simp only [untagObject, tagByte, h]; rfl, ?_⟩ <;>
    simp only [retag, Object.tagOf, Object.get_ptr, i64_from_obj_ptr, hint] <;>
    exact fromPtrAddr_untagPtrAddr v _ hv (by simp [Tag.toNat, tagByte, h])

/-- Witness for `retag_untag`: the word `5 * 256 + 3` (a Cons-tagged value
with untagged address 5) projects and re-tags to itself. -/
theorem retag_untag_witness :
    (1283 : Nat) < 2 ^ 64 ∧ 1283 % 256 < 10 ∧
      ∃ o, untagObject 1283 = some o ∧ retag o = 1283 :=
  ⟨by norm_num, by norm_num, retag_untag 1283 (by norm_num) (by norm_num)⟩

/-- C4: for every well-formed tagged value v (and any address of the
canonical nil symbol): the Number projection succeeds iff the tag is Int
or Float; the List projection succeeds iff v is the canonical nil symbol
or a Cons; the Function projection succeeds iff the tag is ByteFn, SubrFn,
Cons or Symbol; each success returns the word unchanged, and each failure
returns a `TypeError` carrying the expected subset and the value itself. -/
theorem try_from_spec (v nilAddr : Nat) (ht : v % 256 < 10) :
    (try_from_number v = .ok v ↔
      tagByte v = Tag.Int.toNat ∨ tagByte v = Tag.Float.toNat) ∧
    (¬(tagByte v = Tag.Int.toNat ∨ tagByte v = Tag.Float.toNat) →
      try_from_number v = .error ⟨.Number, v⟩) ∧
    (try_from_list nilAddr v = .ok v ↔
      (tagByte v = Tag.Symbol.toNat ∧ untagPtrAddr v = nilAddr) ∨
        tagByte v = Tag.Cons.toNat) ∧
    (¬((tagByte v = Tag.Symbol.toNat ∧ untagPtrAddr v = nilAddr) ∨
        tagByte v = Tag.Cons.toNat) →
      try_from_list nilAddr v = .error ⟨.List, v⟩) ∧
    (try_from_function v = .ok v ↔
      tagByte v = Tag.ByteFn.toNat ∨ tagByte v = Tag.SubrFn.toNat ∨
        tagByte v = Tag.Cons.toNat ∨ tagByte v = Tag.Symbol.toNat) ∧
    (¬(tagByte v = Tag.ByteFn.toNat ∨ tagByte v = Tag.SubrFn.toNat ∨
        tagByte v = Tag.Cons.toNat ∨ tagByte v = Tag.Symbol.toNat) →
      try_from_function v = .error ⟨.Func, v⟩) := by
  have hcases : v % 256 = 0 ∨ v % 256 = 1 ∨ v % 256 = 2 ∨ v % 256 = 3 ∨
      v % 256 = 4 ∨ v % 256 = 5 ∨ v % 256 = 6 ∨ v % 256 = 7 ∨
      v % 256 = 8 ∨ v % 256 = 9 := by omega
  rcases hcases with h | h | h | h | h | h | h | h | h | h <;>
    by_cases hnil : untagPtrAddr v = nilAddr <;>
    simp [try_from_number, try_from_list, try_from_function, untagObject,
      symbolIsNil, tagByte, tagOfByte, h, hnil, Tag.toNat]

/-- Witness for `try_from_spec` at the Float-tagged word 2 with nil symbol
address 7: the Number projection succeeds and the List projection fails
with `TypeError{expected = List, actual = 2}`. -/
theorem try_from_spec_witness :
    try_from_number 2 = .ok 2 ∧ try_from_list 7 2 = .error ⟨.List, 2⟩ :=
  ⟨((try_from_spec 2 7 (by norm_num)).1).2 (by right; rfl),
    (try_from_spec 2 7 (by norm_num)).2.2.2.1 (by decide)⟩

/-- C6: for every well-formed tagged value v, `is_markable v` is true iff
the tag of v is neither Int nor SubrFn; and on Int and SubrFn values the
collector short-circuits: `is_marked` answers true without consulting any
mark bit and `trace_mark` returns the stack and marks unchanged, whatever
the per-object tracing does. -/
theorem is_markable_spec (v : Nat) (ht : v % 256 < 10) :
    (is_markable v = true ↔
      ¬(tagByte v = Tag.Int.toNat ∨ tagByte v = Tag.SubrFn.toNat)) ∧
    (tagByte v = Tag.Int.toNat ∨ tagByte v = Tag.SubrFn.toNat →
      (∀ objMarked, is_marked objMarked v = true) ∧
      (∀ objTrace s, trace_mark objTrace v s = s)) := by
  have hcases : v % 256 = 0 ∨ v % 256 = 1 ∨ v % 256 = 2 ∨ v % 256 = 3 ∨
      v % 256 = 4 ∨ v % 256 = 5 ∨ v % 256 = 6 ∨ v % 256 = 7 ∨
      v % 256 = 8 ∨ v % 256 = 9 := by omega
  rcases hcases with h | h | h | h | h | h | h | h | h | h <;>
    simp [is_markable, is_marked, trace_mark, untagObject, tagByte,
      tagOfByte, h, Tag.toNat]

/-- Witness for `is_markable_spec` at the Int-tagged word `(3 << 8) | 1`:
not markable, reported marked, and tracing is a no-op on an arbitrary
state. -/
theorem is_markable_spec_witness :
    is_markable 769 = false ∧
      is_marked (fun _ => false) 769 = true ∧
      trace_mark (fun _ s => ⟨0 :: s.stack, s.marks⟩) 769 ⟨[], fun _ => false⟩ =
        ⟨[], fun _ => false⟩ := by
  have h := is_markable_spec 769 (by norm_num)
  refine ⟨?_, (h.2 (by decide)).1 _, (h.2 (by decide)).2 _ _⟩
  have hm := (h.1).not
  simp only [Bool.not_eq_true] at hm
  exact hm.2 (by decide)

/-- The fill loop appends exactly its count of nils. -/
theorem pushNils_eq_append {α : Type} (nilv : α) :
    ∀ (k : Nat) (args : List α),
      pushNils nilv args k = args ++ List.replicate k nilv := by
  intro k
  induction k with
  | zero => simp [pushNils]
  | succ m ih =>
      intro args
      rw [pushNils, ih, List.replicate_succ]
      simp

/-- C5: for every SubrFn invocation whose argument vector (of u16-sized
length) passes the arity check, exactly `num_of_fill_args` copies of nil
are appended to the argument vector before the underlying function is
invoked with the argument slice, the environment and the arena; if the
arity check fails, its error is returned and the result is the same
whatever the underlying function is (it is never invoked). -/
theorem subr_call_spec {α β γ δ : Type} (fa : FnArgs) (name : String)
    (nilv : α) (args : List α) (env : γ) (cx : δ)
    (hlen : args.length ≤ 65535) :
    (∀ fill, fa.num_of_fill_args args.length name = .ok fill →
      ∀ subr : List α → γ → δ → β,
        SubrFn.call fa name nilv subr args env cx =
          .ok (subr (args ++ List.replicate fill nilv) env cx)) ∧
    (∀ e, fa.num_of_fill_args args.length name = .error e →
      ∀ subr1 subr2 : List α → γ → δ → β,
        SubrFn.call fa name nilv subr1 args env cx = .error e ∧
          SubrFn.call fa name nilv subr1 args env cx =
            SubrFn.call fa name nilv subr2 args env cx) := by
  have hmod : args.length % 65536 = args.length := Nat.mod_eq_of_lt (by omega)
  constructor
  · intro fill hok subr
    simp [SubrFn.call, hmod, hok, pushNils_eq_append]
  · intro e herr subr1 subr2
    simp [SubrFn.call, hmod, herr]

/-- Witness for `subr_call_spec`: a subr with `{required = 1, optional = 2}`
called on one argument receives two extra nils (the callee observes three
argument slots). -/
theorem subr_call_spec_witness :
    SubrFn.call ⟨false, 1, 2, false⟩ "f" (0 : Nat)
      (fun l (_ : Unit) (_ : Unit) => l.length) [5] () () = .ok 3 := by
  have h := (subr_call_spec ⟨false, 1, 2, false⟩ "f" (0 : Nat) [5] () ()
      (by decide)).1 2 (by rfl) (fun l _ _ => l.length)
  simpa using h

/-- C8 counterexample: comparing two ByteFn values hits a `todo!()` panic
(modelled as `none`), so equality on the Object projection is not a total
boolean function. -/
theorem eqObject_counterexample :
    eqObject (fun _ _ => true) (fun _ _ => true) (fun _ _ => true)
      (fun _ _ => true) (fun _ _ => true) (fun a => a)
      (.ByteFn 0) (.ByteFn 0) = none := rfl

/-- C8 (amended): equality on the Object projection is partial rather than
total: comparing two SubrFn values compares the underlying function
pointers and every other variant combination yields a boolean (distinct
variants compare unequal), except that comparing two ByteFn, two Record or
two HashTable values panics (`todo!()`, i.e. unsupported). -/
theorem eqObject_spec (floatEq symEq consEq vecEq strEq : Nat → Nat → Bool)
    (subrPtr : Nat → Nat) (l r : Object) :
    (∀ a b, eqObject floatEq symEq consEq vecEq strEq subrPtr
        (.SubrFn a) (.SubrFn b) = some (subrPtr a == subrPtr b)) ∧
    (eqObject floatEq symEq consEq vecEq strEq subrPtr l r = none ↔
      (∃ a b, l = .ByteFn a ∧ r = .ByteFn b) ∨
        (∃ a b, l = .Record a ∧ r = .Record b) ∨
        (∃ a b, l = .HashTable a ∧ r = .HashTable b)) := by
  constructor
  · intro a b
    rfl
  · cases l <;> cases r <;> simp [eqObject]

/-- One step of the runner loop accepts exactly when both frame counters
equal the master count. -/
theorem runner_loop_cons (c e r : Nat) (rest : List (Nat × Nat)) :
    runner_loop c ((e, r) :: rest) =
      if e = c ∧ r = c then runner_loop (c + 1) rest else none := by
  by_cases he : e = c <;> by_cases hr : r = c <;>
    simp [runner_loop, process_eval_result, he, hr]

/-- Invariant of the runner loop started at master count c: it reaches the
final count iff every frame pair carries exactly the running count, and
otherwise it aborts. -/
theorem runner_loop_spec (cases : List (Nat × Nat)) :
    ∀ c, (runner_loop c cases = some (c + cases.length) ↔
        ∀ i (h : i < cases.length), cases.get ⟨i, h⟩ = (c + i, c + i)) ∧
      (runner_loop c cases = some (c + cases.length) ∨
        runner_loop c cases = none) := by
  induction cases with
  | nil =>
      intro c
      exact ⟨by simp [runner_loop], Or.inl (by simp [runner_loop])⟩
  | cons p rest ih =>
      intro c
      obtain ⟨e, r⟩ := p
      rw [runner_loop_cons]
      by_cases hec : e = c ∧ r = c
      · rw [if_pos hec]
        have hlen : c + ((e, r) :: rest).length = (c + 1) + rest.length := by
          simp
          omega
        constructor
        · rw [hlen, (ih (c + 1)).1]
          constructor
          · intro hrest i hi
            match i with
            | 0 => simp [hec.1, hec.2]
            | Nat.succ j =>
                have hj : j < rest.length := by simpa using hi
                have hr := hrest j hj
                have harith : c + (j + 1) = c + 1 + j := by omega
                simpa [List.get_cons_succ, harith] using hr
          · intro hall j hj
            have hi : j + 1 < ((e, r) :: rest).length := by simpa using hj
            have hr := hall (j + 1) hi
            have harith : c + 1 + j = c + (j + 1) := by omega
            simpa [List.get_cons_succ, harith] using hr
        · rw [hlen]
          exact (ih (c + 1)).2
      · rw [if_neg hec]
        constructor
        · constructor
          · intro hnone
            simp at hnone
          · intro hall
            have h0 := hall 0 (by simp)
            simp at h0
            exact absurd ⟨h0.1, h0.2⟩ hec
        · exact Or.inr rfl

/-- C9: the runner (started with master count 0) completes a sequence of
test cases iff the counter of every received `ELPROP_START` frame — for
the Emacs peer and the Rune peer alike — equals the number of test cases
completed so far, starting at 0 and increasing by exactly one per case;
any other sequence of counters makes it abort rather than accept. -/
theorem runner_counter_spec (cases : List (Nat × Nat)) :
    (runner_loop 0 cases = some cases.length ↔
      ∀ i (h : i < cases.length), cases.get ⟨i, h⟩ = (i, i)) ∧
    (runner_loop 0 cases = some cases.length ∨ runner_loop 0 cases = none) := by
  have h := runner_loop_spec cases 0
  simpa using h

/-- Witness for `runner_counter_spec`: two test cases whose Emacs and Rune
frames carry counters 0 and 1 are accepted, and flipping one counter makes
the runner abort. -/
theorem runner_counter_spec_witness :
    runner_loop 0 [(0, 0), (1, 1)] = some 2 ∧
      runner_loop 0 [(0, 0), (2, 1)] = none := by
  constructor
  · exact (runner_counter_spec [(0, 0), (1, 1)]).1.mpr (by decide)
  · have h := (runner_counter_spec [(0, 0), (2, 1)]).2
    rcases h with h | h
    · rw [(runner_counter_spec [(0, 0), (2, 1)]).1] at h
      have := h 1 (by norm_num)
      simp at this
    · exact h

/-- Replacing a character that does not occur is the identity. -/
theorem replaceChar_not_mem (pat : Char) (rep : List Char) :
    ∀ s : List Char, (∀ c ∈ s, c ≠ pat) → replaceChar s pat rep = s := by
  intro s
  induction s with
  | nil => intro _; rfl
  | cons a t ih =>
      intro h
      have ha : a ≠ pat := h a (by simp)
      have ht : ∀ c ∈ t, c ≠ pat := fun c hc => h c (by simp [hc])
      simp only [replaceChar, List.flatMap_cons, if_neg ha]
      rw [show t.flatMap (fun c => if c = pat then rep else [c]) = replaceChar t pat rep from rfl]
      rw [ih ht]
      rfl

/-- Garay-block characters are neither the backslash nor the double
quote, so the escaping replaces leave them alone. -/
theorem isGaray_ne_escape (c : Char) (h : isGaray c = true) :
    c ≠ Char.ofNat 92 ∧ c ≠ Char.ofNat 34 := by
  simp only [isGaray, Bool.and_eq_true, decide_eq_true_eq] at h
  constructor
  · intro hc
    rw [hc] at h
    revert h
    decide
  · intro hc
    rw [hc] at h
    revert h
    decide

/-- C7 counterexample: the two-character string backslash-then-`U+10D40`
contains a code point of the reserved Garay block, yet upcase doubles the
backslash and returns a different string. The identity uppercase
expansion is faithful here: the Unicode uppercase mapping fixes the
backslash, and the Garay character never reaches it. -/
theorem upcase_garay_counterexample :
    (Char.ofNat 0x10D40 ∈ [Char.ofNat 92, Char.ofNat 0x10D40] ∧
      isGaray (Char.ofNat 0x10D40) = true) ∧
    upcase (fun c => [c]) [Char.ofNat 92, Char.ofNat 0x10D40] ≠
      [Char.ofNat 92, Char.ofNat 0x10D40] := by
  constructor
  · constructor
    · simp
    · decide
  · decide

/-- C7 (amended): for every byte string all of whose code points lie in
the reserved Garay block `U+10D40..=U+10D8F`, upcase returns the input
unchanged, whatever the Unicode uppercase mapping does elsewhere. -/
theorem upcase_garay (toUp : Char → List Char) (s : List Char)
    (h : ∀ c ∈ s, isGaray c = true) : upcase toUp s = s := by
  have hconv : caseConvert toUp s = s := by
    induction s with
    | nil => rfl
    | cons a t ih =>
        have ha : isGaray a = true := h a (by simp)
        have ht : ∀ c ∈ t, isGaray c = true := fun c hc => h c (by simp [hc])
        simp only [caseConvert, List.flatMap_cons, if_pos ha]
        rw [show t.flatMap (fun c => if isGaray c then [c] else toUp c) =
          caseConvert toUp t from rfl]
        rw [ih ht]
        rfl
  unfold upcase
  rw [hconv]
  rw [replaceChar_not_mem _ _ s fun c hc => (isGaray_ne_escape c (h c hc)).1]
  rw [replaceChar_not_mem _ _ s fun c hc => (isGaray_ne_escape c (h c hc)).2]

/-- Witness for `upcase_garay`: upcase fixes the two-character Garay
string `U+10D40 U+10D8F`. -/
theorem upcase_garay_witness :
    upcase (fun c => [c]) [Char.ofNat 0x10D40, Char.ofNat 0x10D8F] =
      [Char.ofNat 0x10D40, Char.ofNat 0x10D8F] :=
  upcase_garay (fun c => [c]) [Char.ofNat 0x10D40, Char.ofNat 0x10D8F] (by decide)

/-- Occurrence count after a single-character replace. -/
theorem count_replaceChar (pat b : Char) (rep : List Char) :
    ∀ s : List Char, (replaceChar s pat rep).count b =
      s.count pat * rep.count b + (if b = pat then 0 else s.count b) := by
  intro s
  induction s with
  | nil => simp [replaceChar]
  | cons a t ih =>
      have hstep : replaceChar (a :: t) pat rep =
          (if a = pat then rep else [a]) ++ replaceChar t pat rep := rfl
      rw [hstep]
      rw [List.count_append]
      rw [ih]
      by_cases hap : a = pat <;> by_cases hbp : b = pat <;>
        by_cases hab : a = b <;>
        simp_all [List.count_cons, Nat.succ_mul, Nat.add_mul] <;>
        omega

/-- C10: upcase is not the character-wise case conversion of its input:
in the returned string every backslash produced by case conversion has
been doubled and every double quote has received a preceding backslash
(so the backslash count is twice the converted backslash count plus the
quote count, and the quote count is preserved); in particular, with the
Unicode uppercase mapping fixing the double quote, upcase of the
one-character string `"` is the two-character string `\"`. -/
theorem upcase_escape_spec (toUp : Char → List Char)
    (hq : toUp (Char.ofNat 34) = [Char.ofNat 34]) :
    (∀ s, (upcase toUp s).count (Char.ofNat 92) =
      2 * (caseConvert toUp s).count (Char.ofNat 92) +
        (caseConvert toUp s).count (Char.ofNat 34)) ∧
    (∀ s, (upcase toUp s).count (Char.ofNat 34) =
      (caseConvert toUp s).count (Char.ofNat 34)) ∧
    upcase toUp [Char.ofNat 34] = [Char.ofNat 92, Char.ofNat 34] ∧
    upcase toUp [Char.ofNat 34] ≠ [Char.ofNat 34] := by
  have hne1 : Char.ofNat 34 ≠ Char.ofNat 92 := by decide
  have hne2 : Char.ofNat 92 ≠ Char.ofNat 34 := by decide
  have c1 : List.count (Char.ofNat 34) [Char.ofNat 92, Char.ofNat 92] = 0 := by decide
  have c2 : List.count (Char.ofNat 92) [Char.ofNat 92, Char.ofNat 92] = 2 := by decide
  have c3 : List.count (Char.ofNat 34) [Char.ofNat 92, Char.ofNat 34] = 1 := by decide
  have c4 : List.count (Char.ofNat 92) [Char.ofNat 92, Char.ofNat 34] = 1 := by decide
  have hcount : ∀ s, (upcase toUp s).count (Char.ofNat 92) =
      2 * (caseConvert toUp s).count (Char.ofNat 92) +
        (caseConvert toUp s).count (Char.ofNat 34) := by
    intro s
    unfold upcase
    rw [count_replaceChar, count_replaceChar, count_replaceChar]
    rw [c1, c2, c4, if_neg hne2, if_neg hne1]
    simp
    omega
  have hconvq : caseConvert toUp [Char.ofNat 34] = [Char.ofNat 34] := by
    simp only [caseConvert, List.flatMap_cons, List.flatMap_nil]
    rw [if_neg (by decide), hq]
    rfl
  have hexample : upcase toUp [Char.ofNat 34] = [Char.ofNat 92, Char.ofNat 34] := by
    unfold upcase
    rw [hconvq]
    rfl
  refine ⟨hcount, ?_, hexample, ?_⟩
  · intro s
    unfold upcase
    rw [count_replaceChar, count_replaceChar]
    rw [c1, c3, if_neg hne1]
    simp
  · rw [hexample]
    decide

/-- Witness for `upcase_escape_spec`: with the identity uppercase
expansion (faithful at the double quote, which has no uppercase mapping),
upcase of `"` is `\"`. -/
theorem upcase_escape_spec_witness :
    upcase (fun c => [c]) [Char.ofNat 34] = [Char.ofNat 92, Char.ofNat 34] :=
  (upcase_escape_spec (fun c => [c]) rfl).2.2.1

end Rune
